import Mathlib

set_option maxRecDepth 100000
set_option maxHeartbeats 1000000

/-
Verification of the cortex memory-lifecycle subsystem.

This file gives a shallow embedding of the parts of the code that the
checked claims are about, and proves or refutes each claim against it.

Embedding conventions, chosen once and used throughout:
* A SQLite table is a `List` of row structures, kept in table-scan
  (rowid, i.e. ascending id) order.  SQL `REAL` columns are modelled as
  `ℚ`, `INTEGER` columns as `Nat`/`Int`, nullable columns as `Option`.
* `TIMESTAMP` columns that no claim mentions (`created_at`,
  `updated_at`, `last_used`) are omitted from the row structures;
  `episodic_memory.timestamp` is modelled as an `Int` (any
  order-isomorphic encoding of timestamps works for the comparisons the
  code performs).
* JSON (de)serialization of `skill_memory.steps` / `prerequisites`
  (`json.dumps` on write, `json.loads` on read) is modelled as the
  identity on the structured value `Option (List String)`, which is the
  round-trip the code performs.
* Python float arithmetic on confidences is modelled as exact `ℚ`
  arithmetic; Python `//` on integers is `Int.fdiv` (floor division).
* A `sqlite3` transaction (`MemoryDatabase.transaction`) is modelled by
  `runTransaction`: the body either produces a new state (committed) or
  an error, in which case the pre-call state is kept (rollback) and the
  error is handed to the caller (re-raise).
-/

/-- A row of the `semantic_memory` table (`cortex/memory/schema.py`).
The `source_type`, `created_at` and `updated_at` columns are carried
unchanged by every operation a claim mentions and are omitted. -/
structure SRow where
  id : Nat
  topic : String
  fact : String
  confidence : ℚ
  source : Option String
  reliability : ℚ
  access_count : Nat
  tier : String
deriving DecidableEq

/-- A row of the `episodic_memory` table (`cortex/memory/schema.py`). -/
structure EpisodicRow where
  id : Nat
  timestamp : Int
  event_type : String
  command : Option String
  result : Option String
  duration_ms : Option Int
  context : Option String
  session_id : Option String
  tier : String
deriving DecidableEq

/-- A row of the `skill_memory` table (`cortex/memory/schema.py`).
`steps` and `prerequisites` hold the decoded JSON value. -/
structure Skill where
  id : Nat
  skill_name : String
  description : Option String
  steps : Option (List String)
  prerequisites : Option (List String)
  confidence : ℚ
  success_count : Nat
  failure_count : Nat
  avg_duration_ms : Option Int
  tier : String
deriving DecidableEq

/-- A row of the `sessions` table (`cortex/memory/schema.py`).
`start_time`/`end_time` use the same `Int` timestamp encoding as
`EpisodicRow.timestamp`. -/
structure Session where
  id : String
  start_time : Int
  end_time : Option Int
  summary : Option String
  context : Option String
deriving DecidableEq

/-- A `LearningTask` of `cortex/learning/background.py` (the wall-clock
fields `created_at`/`last_updated` are omitted; no claim mentions them). -/
structure LTask where
  topic : String
  priority : Nat
  facts_count : Nat
  improvement_rounds : Nat
deriving DecidableEq

/-- The mutable state of `BackgroundLearner` that `_process_batch`
reads and writes: the FIFO `task_queue`, the `active_tasks` map
(modelled as an association list), the `semantic_memory` table it
updates through `_improve_topic`, and the two statistics counters it
maintains. -/
structure SchedulerState where
  queue : List String
  tasks : List (String × LTask)
  rows : List SRow
  facts_learned : Nat
  improvement_rounds : Nat
deriving DecidableEq

/-- The JSON document shape written by
`MemoryConsolidator.export_knowledge_base` (the `exported_at` stamp is
omitted). -/
structure KnowledgeExport where
  semantic_memory : List SRow
  skill_memory : List Skill
  sessions : List Session
deriving DecidableEq

/-- Stable insertion of `a` into `l`: `a` goes immediately before the
first element `b` with `le a b`.  Used to model SQL `ORDER BY` and
Python's stable `list.sort`. -/
def insertLe {α : Type} (le : α → α → Bool) (a : α) : List α → List α
  | [] => [a]
  | b :: bs => if le a b then a :: b :: bs else b :: insertLe le a bs

/-- Stable sort by the boolean relation `le` (elements that compare
equal keep their original relative order). -/
def insertionSortBy {α : Type} (le : α → α → Bool) (l : List α) : List α :=
  l.foldr (insertLe le) []

/-- Number of positions at which `after` differs from `before`
(pointwise on the zip).  Used to count how many rows a statement
actually rewrote. -/
def changedCount {α : Type} [DecidableEq α] (before after : List α) : Nat :=
  ((before.zip after).filter (fun q => decide (q.1 ≠ q.2))).length

/-- Python truthiness of a nullable integer: `None` and `0` are falsy.
`update_skill_stats` guards the duration update with
`if duration_ms and avg_duration`. -/
def truthyI : Option Int → Bool
  | some d => decide (d ≠ 0)
  | none => false

/-- `MemoryDatabase.transaction` (`cortex/memory/database.py`): run the
body; on success commit its result, on failure roll back to the
pre-call state and hand the error to the caller. -/
def runTransaction {σ ε : Type} (body : σ → Except ε σ) (s : σ) : σ × Option ε :=
  match body s with
  | Except.ok s' => (s', none)
  | Except.error e => (s, some e)

/-- `MemoryDatabase.get_semantic_memories`: filter by optional topic and
minimum confidence, order by confidence then access count (both
descending), and truncate to `limit` rows. -/
def getSemanticMemories (topic : Option String) (min_confidence : ℚ) (limit : Nat)
    (rows : List SRow) : List SRow :=
  let ord : SRow → SRow → Bool := fun a b =>
    decide (b.confidence < a.confidence) ||
      (decide (a.confidence = b.confidence) && decide (b.access_count ≤ a.access_count))
  match topic with
  | some t =>
      (insertionSortBy ord (rows.filter
        (fun r => decide (r.topic = t) && decide (min_confidence ≤ r.confidence)))).take limit
  | none =>
      (insertionSortBy ord (rows.filter
        (fun r => decide (min_confidence ≤ r.confidence)))).take limit

/-- The per-row effect of one `update_skill_stats` call on the row it
fetched: bump the outcome counters, recompute the Laplace confidence
`(successes+1)/(total+2)`, and update the running average duration with
Python's truthiness guards and floor division. -/
def stepSkill (success : Bool) (duration_ms : Option Int) (sk : Skill) : Skill :=
  let sc := sk.success_count + (if success then 1 else 0)
  let fc := sk.failure_count + (if success then 0 else 1)
  { sk with
    success_count := sc
    failure_count := fc
    confidence := ((sc : ℚ) + 1) / (((sc + fc : Nat) : ℚ) + 2)
    avg_duration_ms :=
      if truthyI duration_ms && truthyI sk.avg_duration_ms then
        some ((sk.avg_duration_ms.getD 0 + duration_ms.getD 0).fdiv 2)
      else if truthyI duration_ms then duration_ms
      else sk.avg_duration_ms }

/-- `MemoryDatabase.update_skill_stats`: fetch the row named
`skill_name`; if it exists, write the recomputed statistics back to the
rows with that name; if it does not, do nothing. -/
def updateSkillStats (skill_name : String) (success : Bool) (duration_ms : Option Int)
    (skills : List Skill) : List Skill :=
  match skills.find? (fun s => decide (s.skill_name = skill_name)) with
  | none => skills
  | some sk =>
      let sk' := stepSkill success duration_ms sk
      skills.map (fun s =>
        if decide (s.skill_name = skill_name) then
          { s with
            success_count := sk'.success_count
            failure_count := sk'.failure_count
            confidence := sk'.confidence
            avg_duration_ms := sk'.avg_duration_ms }
        else s)

/-- `update_skill_stats` as the caller sees it: the whole body runs
inside `MemoryDatabase.transaction` and never raises, so the caller
gets the updated table and no error. -/
def updateSkillStatsOp (skill_name : String) (success : Bool) (duration_ms : Option Int)
    (skills : List Skill) : List Skill × Option String :=
  runTransaction (fun st => Except.ok (updateSkillStats skill_name success duration_ms st)) skills

/-- A sequence of `record_skill_outcome` calls for one skill, applied
in order; each element is `(success, duration_ms)`. -/
def applyOutcomes (skill_name : String) (outcomes : List (Bool × Option Int))
    (skills : List Skill) : List Skill :=
  outcomes.foldl (fun st o => updateSkillStats skill_name o.1 o.2 st) skills

/-- Number of successful outcomes in a call sequence. -/
def successCount (outcomes : List (Bool × Option Int)) : Nat :=
  (outcomes.filter (fun o => o.1)).length

/-- Number of failed outcomes in a call sequence. -/
def failureCount (outcomes : List (Bool × Option Int)) : Nat :=
  (outcomes.filter (fun o => !o.1)).length

/-- First 50 characters of a fact, the `SUBSTR(fact, 1, 50)` grouping
key of `_consolidate_semantic`. -/
def first50 (s : String) : String := s.take 50

/-- Two semantic rows fall into the same duplicate group iff they share
the topic and the first 50 characters of the fact text. -/
def sameKey (a b : SRow) : Bool :=
  decide (a.topic = b.topic) && decide (first50 a.fact = first50 b.fact)

/-- `MAX(confidence)` over a (nonempty) duplicate group. -/
def maxConf : List SRow → ℚ
  | [] => 0
  | [r] => r.confidence
  | r :: rs => max r.confidence (maxConf rs)

/-- What one `_consolidate_semantic` pass does to the single row `r` of
the table `rows`: a row in a singleton group survives unchanged; the
first row of a larger group (the first id of `GROUP_CONCAT(id)` in scan
order) survives with the group's maximum confidence and its own access
count plus the number of removed duplicates; every other group member
is deleted. -/
def dedupRule (rows : List SRow) (r : SRow) : Option SRow :=
  let g := rows.filter (fun x => sameKey x r)
  if g.length ≤ 1 then some r
  else if g.head? = some r then
    some { r with
      confidence := maxConf g
      access_count := r.access_count + (g.length - 1) }
  else none

/-- `MemoryConsolidator._consolidate_semantic`
(`cortex/memory/consolidation.py`): apply the duplicate rule to every
row; the second component is the number of deleted rows (the value the
method returns). -/
def consolidateSemantic (rows : List SRow) : List SRow × Nat :=
  let result := rows.filterMap (dedupRule rows)
  (result, rows.length - result.length)

/-- Find a row by id (ids are the `INTEGER PRIMARY KEY`, unique in any
reachable table). -/
def lookupById (rows : List SRow) (i : Nat) : Option SRow :=
  rows.find? (fun y => decide (y.id = i))

/-- `MemoryConsolidator._archive_episodic`
(`cortex/memory/consolidation.py`): rows in the WARM tier older than
the cutoff are relabelled COLD (after being serialized to the archive
file, which is outside the store); the second component is the number
of archived rows the method reports.  No row is deleted. -/
def archiveEpisodic (cutoff : Int) (rows : List EpisodicRow) : List EpisodicRow × Nat :=
  let records := rows.filter (fun r => decide (r.timestamp < cutoff) && decide (r.tier = "WARM"))
  if records.isEmpty then (rows, records.length)
  else
    (rows.map (fun r =>
      if decide (r.timestamp < cutoff) && decide (r.tier = "WARM") then
        { r with tier := "COLD" }
      else r), records.length)

/-- `MemoryConsolidator.export_knowledge_base`
(`cortex/memory/consolidation.py`): semantic facts with confidence
≥ 0.5, skills with confidence ≥ 0.5, and the 100 most recent sessions
that have a summary.  The returned report's counts are the lengths of
the three lists and are not modelled separately. -/
def exportKnowledgeBase (facts : List SRow) (skills : List Skill)
    (sess : List Session) : KnowledgeExport :=
  { semantic_memory := facts.filter (fun r => decide ((1 / 2 : ℚ) ≤ r.confidence))
    skill_memory := skills.filter (fun s => decide ((1 / 2 : ℚ) ≤ s.confidence))
    sessions :=
      (insertionSortBy (fun a b => decide (b.start_time ≤ a.start_time))
        (sess.filter (fun s => s.summary.isSome))).take 100 }

/-- SQLite `COLLATE NOCASE` equality (ASCII case folding). -/
def nocaseEq (a b : String) : Bool := decide (a.toLower = b.toLower)

/-- The `SELECT ... WHERE topic = ? COLLATE NOCASE ORDER BY confidence
ASC LIMIT 5` of `_improve_topic`: the at most five lowest-confidence
facts of a topic. -/
def lowConfFacts (topic : String) (rows : List SRow) : List SRow :=
  (insertionSortBy (fun a b => decide (a.confidence ≤ b.confidence))
    (rows.filter (fun r => nocaseEq r.topic topic))).take 5

/-- `BackgroundLearner._improve_topic` (`cortex/learning/background.py`):
take the first fetched fact with confidence < 0.7; if there is one, the
`UPDATE ... WHERE topic = ? COLLATE NOCASE AND fact = ?` sets the
confidence of every row with that topic (case-insensitively) and that
exact fact text to `min(confidence + 0.05, 0.9)` and the call reports an
improvement; otherwise nothing is written. -/
def improveTopic (topic : String) (rows : List SRow) : List SRow × Bool :=
  let considered := lowConfFacts topic rows
  if considered.isEmpty then (rows, false)
  else
    match considered.find? (fun r => decide (r.confidence < 7 / 10)) with
    | some f =>
        (rows.map (fun r =>
          if nocaseEq r.topic topic && decide (r.fact = f.fact) then
            { r with confidence := min (f.confidence + 1 / 20) (9 / 10) }
          else r), true)
    | none => (rows, false)

/-- A sequence of incremental-improvement calls (the per-topic steps of
any number of scheduler cycles), applied to the semantic table. -/
def runImprovementCycles (topics : List String) (rows : List SRow) : List SRow :=
  topics.foldl (fun rs t => (improveTopic t rs).1) rows

/-- `BackgroundLearner._calculate_priority`. -/
def calculatePriority (fact_count : Nat) (avg_confidence : ℚ) : Nat :=
  if fact_count < 5 then 6
  else if avg_confidence < 1 / 2 then 8
  else if avg_confidence < 7 / 10 then 7
  else 3

/-- The priority `_process_batch` recomputes when requeueing a task:
`_calculate_priority(task.facts_count, 0.7)` (0.7 is the hard-coded
confidence estimate). -/
def requeuePriority (task : LTask) : Nat :=
  calculatePriority task.facts_count (7 / 10)

/-- Python dict access `active_tasks[topic]` (keys are unique). -/
def lookupTask (tasks : List (String × LTask)) (topic : String) : Option LTask :=
  (tasks.find? (fun p => decide (p.1 = topic))).map (fun p => p.2)

/-- The pop loop of `_process_batch`: pop `min(batch_size, len(queue))`
topics from the front; a popped topic contributes its task to the batch
only if it is in `active_tasks`. -/
def popBatch (tasks : List (String × LTask)) : Nat → List String → List LTask × List String
  | 0, q => ([], q)
  | _ + 1, [] => ([], [])
  | n + 1, t :: q =>
      let rest := popBatch tasks n q
      match lookupTask tasks t with
      | some task => (task :: rest.1, rest.2)
      | none => rest

/-- The descending-priority order `_process_batch` sorts the popped
batch with (`batch.sort(key=lambda t: t.priority, reverse=True)`,
stable). -/
def prioGe (a b : LTask) : Bool := decide (b.priority ≤ a.priority)

/-- Processing of one batch element in `_process_batch`: improve the
topic, bump the counters when an improvement was made, recompute the
priority, and requeue the topic — at the front when the new priority is
at least 7, at the back otherwise. -/
def processTask (st : SchedulerState) (task : LTask) : SchedulerState :=
  let p := improveTopic task.topic st.rows
  let task' : LTask :=
    { task with
      improvement_rounds := task.improvement_rounds + (if p.2 then 1 else 0)
      priority := requeuePriority task }
  { queue := if 7 ≤ task'.priority then task.topic :: st.queue else st.queue ++ [task.topic]
    tasks := st.tasks.map (fun q => if decide (q.1 = task.topic) then (q.1, task') else q)
    rows := p.1
    facts_learned := st.facts_learned + (if p.2 then 1 else 0)
    improvement_rounds := st.improvement_rounds + (if p.2 then 1 else 0) }

/-- `BackgroundLearner._process_batch` (`cortex/learning/background.py`):
pop up to `batch_size` topics, sort the popped batch by priority
descending, process the batch in that order and requeue every processed
topic. -/
def processBatch (batch_size : Nat) (st : SchedulerState) : SchedulerState :=
  let pb := popBatch st.tasks batch_size st.queue
  let sorted := insertionSortBy prioGe pb.1
  let st1 : SchedulerState := { st with queue := pb.2 }
  if sorted.isEmpty then st1 else sorted.foldl processTask st1

/-- C1 counterexample input: two semantic rows with the same topic and
the same first-50-character fact text but different access counts. -/
def dupRowA : SRow :=
  { id := 1, topic := "t", fact := "same fact", confidence := 3 / 10
    source := none, reliability := 1 / 2, access_count := 5, tier := "WARM" }

/-- C1 counterexample input: the second member of the duplicate group. -/
def dupRowB : SRow :=
  { id := 2, topic := "t", fact := "same fact", confidence := 9 / 10
    source := none, reliability := 1 / 2, access_count := 7, tier := "WARM" }

/-- C1 witness input: the three-fact python group of the spec's example
(confidences 0.3, 0.6, 0.9). -/
def pyRow1 : SRow :=
  { id := 1, topic := "python", fact := "indentation is significant", confidence := 3 / 10
    source := none, reliability := 1 / 2, access_count := 1, tier := "WARM" }

/-- C1 witness input, second group member. -/
def pyRow2 : SRow :=
  { id := 2, topic := "python", fact := "indentation is significant", confidence := 6 / 10
    source := none, reliability := 1 / 2, access_count := 2, tier := "WARM" }

/-- C1 witness input, third group member. -/
def pyRow3 : SRow :=
  { id := 3, topic := "python", fact := "indentation is significant", confidence := 9 / 10
    source := none, reliability := 1 / 2, access_count := 3, tier := "WARM" }

/-- C1 witness input: the full table. -/
def pyRows : List SRow := [pyRow1, pyRow2, pyRow3]

/-- C2 witness input: a freshly added skill (zero counters, default
confidence 0.5). -/
def lapSkill : Skill :=
  { id := 1, skill_name := "deploy", description := none, steps := none
    prerequisites := none, confidence := 1 / 2, success_count := 0
    failure_count := 0, avg_duration_ms := none, tier := "WARM" }

/-- C2 witness input: the skill table. -/
def lapSkills : List Skill := [lapSkill]

/-- C2 witness input: 4 successes then 1 failure (the spec's 5/7
example). -/
def lapOutcomes : List (Bool × Option Int) :=
  [(true, none), (true, none), (true, none), (true, none), (false, none)]

/-- C3 witness input: a transaction body that fails (e.g. the commit
raises). -/
def failBody : Nat → Except String Nat := fun _ => Except.error "disk full"

/-- C4 input: a low-confidence fact. -/
def impRowA : SRow :=
  { id := 1, topic := "t", fact := "dup fact", confidence := 3 / 10
    source := none, reliability := 1 / 2, access_count := 0, tier := "WARM" }

/-- C4 input: a second row with the same topic and fact text but high
confidence. -/
def impRowB : SRow :=
  { id := 2, topic := "t", fact := "dup fact", confidence := 8 / 10
    source := none, reliability := 1 / 2, access_count := 0, tier := "WARM" }

/-- C5 witness input: a single in-range fact. -/
def invRow : SRow :=
  { id := 1, topic := "t", fact := "f", confidence := 1 / 2
    source := none, reliability := 1 / 2, access_count := 0, tier := "WARM" }

/-- C6 witness input: a small task. -/
def taskA : LTask := { topic := "a", priority := 3, facts_count := 2, improvement_rounds := 0 }

/-- C6 witness input: a second task. -/
def taskB : LTask := { topic := "b", priority := 9, facts_count := 10, improvement_rounds := 0 }

/-- C6 witness input: a scheduler state with two queued tracked topics. -/
def demoSched : SchedulerState :=
  { queue := ["a", "b"], tasks := [("a", taskA), ("b", taskB)], rows := []
    facts_learned := 0, improvement_rounds := 0 }

/-- C7 counterexample input: stored average 1 ms. -/
def avgSkillOdd : Skill :=
  { id := 1, skill_name := "s", description := none, steps := none
    prerequisites := none, confidence := 1 / 2, success_count := 0
    failure_count := 0, avg_duration_ms := some 1, tier := "WARM" }

/-- C7 counterexample input: stored average 10 ms (new sample will be 0). -/
def avgSkillZero : Skill :=
  { id := 1, skill_name := "z", description := none, steps := none
    prerequisites := none, confidence := 1 / 2, success_count := 0
    failure_count := 0, avg_duration_ms := some 10, tier := "WARM" }

/-- C7 witness input: stored average 4 ms. -/
def avgSkillW : Skill :=
  { id := 1, skill_name := "w", description := none, steps := none
    prerequisites := none, confidence := 1 / 2, success_count := 0
    failure_count := 0, avg_duration_ms := some 4, tier := "WARM" }

/-- C8 counterexample input: 101 facts, all with confidence 1 ≥ 0.5. -/
def bigFacts : List SRow :=
  (List.range 101).map (fun i =>
    { id := i, topic := "t", fact := "f", confidence := 1
      source := none, reliability := 1 / 2, access_count := 0, tier := "WARM" })

/-- C8 witness input: one qualifying and one non-qualifying fact. -/
def expFacts : List SRow :=
  [{ id := 1, topic := "t", fact := "f", confidence := 3 / 4
     source := none, reliability := 1 / 2, access_count := 0, tier := "WARM" },
   { id := 2, topic := "t", fact := "g", confidence := 1 / 4
     source := none, reliability := 1 / 2, access_count := 0, tier := "WARM" }]

/-- C10 witness input: a table containing only the skill "known". -/
def missSkills : List Skill :=
  [{ id := 1, skill_name := "known", description := none, steps := none
     prerequisites := none, confidence := 1 / 2, success_count := 2
     failure_count := 1, avg_duration_ms := some 3, tier := "WARM" }]

theorem length_insertLe {α : Type} (le : α → α → Bool) (a : α) (l : List α) :
    (insertLe le a l).length = l.length + 1 := by
  induction l with
  | nil => rfl
  | cons b bs ih =>
      simp only [insertLe]
      split
      · simp
      · simp [ih]

theorem mem_insertLe {α : Type} (le : α → α → Bool) (a b : α) (l : List α) :
    b ∈ insertLe le a l ↔ b = a ∨ b ∈ l := by
  induction l with
  | nil => simp [insertLe]
  | cons c cs ih =>
      simp only [insertLe]
      split
      · simp [List.mem_cons]
      · simp only [List.mem_cons, ih]
        tauto

theorem length_insertionSortBy {α : Type} (le : α → α → Bool) (l : List α) :
    (insertionSortBy le l).length = l.length := by
  induction l with
  | nil => rfl
  | cons a l ih =>
      simp only [insertionSortBy, List.foldr_cons] at *
      rw [length_insertLe, ih, List.length_cons]

theorem mem_insertionSortBy {α : Type} (le : α → α → Bool) (a : α) (l : List α) :
    a ∈ insertionSortBy le l ↔ a ∈ l := by
  induction l with
  | nil => simp [insertionSortBy]
  | cons b bs ih =>
      simp only [insertionSortBy, List.foldr_cons] at *
      rw [mem_insertLe, ih, List.mem_cons]

theorem pairwise_insertLe {α : Type} (le : α → α → Bool) (a : α) (l : List α)
    (htot : ∀ x y, le x y = true ∨ le y x = true)
    (htrans : ∀ x y z, le x y = true → le y z = true → le x z = true)
    (h : l.Pairwise (fun x y => le x y = true)) :
    (insertLe le a l).Pairwise (fun x y => le x y = true) := by
  induction l with
  | nil => simp [insertLe]
  | cons b bs ih =>
      rcases List.pairwise_cons.mp h with ⟨hb, hbs⟩
      simp only [insertLe]
      split
      · rename_i hab
        refine List.pairwise_cons.mpr ⟨?_, h⟩
        intro x hx
        rcases List.mem_cons.mp hx with rfl | hx
        · exact hab
        · exact htrans a b x hab (hb x hx)
      · rename_i hab
        have hba : le b a = true := by
          rcases htot a b with h1 | h1
          · exact absurd h1 hab
          · exact h1
        refine List.pairwise_cons.mpr ⟨?_, ih hbs⟩
        intro x hx
        rcases (mem_insertLe le a x bs).mp hx with rfl | hx
        · exact hba
        · exact hb x hx

theorem pairwise_insertionSortBy {α : Type} (le : α → α → Bool) (l : List α)
    (htot : ∀ x y, le x y = true ∨ le y x = true)
    (htrans : ∀ x y z, le x y = true → le y z = true → le x z = true) :
    (insertionSortBy le l).Pairwise (fun x y => le x y = true) := by
  induction l with
  | nil => simp [insertionSortBy]
  | cons a l ih =>
      simp only [insertionSortBy, List.foldr_cons] at *
      exact pairwise_insertLe le a _ htot htrans ih

theorem map_eq_self_of {α : Type} (l : List α) (f : α → α) (h : ∀ x ∈ l, f x = x) :
    l.map f = l := by
  induction l with
  | nil => rfl
  | cons a l ih =>
      simp only [List.map_cons]
      rw [h a (List.mem_cons_self a l), ih (fun x hx => h x (List.mem_cons_of_mem a hx))]

theorem changedCount_map_le {α : Type} [DecidableEq α] (l : List α) (g : α → α) (p : α → Bool)
    (hp : ∀ r, g r ≠ r → p r = true) :
    changedCount l (l.map g) ≤ l.countP p := by
  induction l with
  | nil => simp [changedCount]
  | cons a l ih =>
      by_cases hga : g a = a
      · have h1 : changedCount (a :: l) ((a :: l).map g) = changedCount l (l.map g) := by
          simp [changedCount, hga]
        rw [h1, List.countP_cons]
        have h2 : changedCount l (l.map g) ≤ l.countP p := ih
        omega
      · have hpa : p a = true := hp a hga
        have hne : a ≠ g a := fun h => hga h.symm
        have h1 : changedCount (a :: l) ((a :: l).map g) = changedCount l (l.map g) + 1 := by
          simp [changedCount, hne]
        rw [h1, List.countP_cons, hpa]
        have h2 : changedCount l (l.map g) ≤ l.countP p := ih
        simpa using h2

theorem find?_filterMap_of_keeps_id (f : SRow → Option SRow)
    (hf : ∀ x y, f x = some y → y.id = x.id) :
    ∀ (rows : List SRow), rows.Pairwise (fun a b => a.id ≠ b.id) → ∀ r ∈ rows,
      (rows.filterMap f).find? (fun y => decide (y.id = r.id)) = f r := by
  intro rows
  induction rows with
  | nil => intro _ r hr; simp at hr
  | cons a l ih =>
      intro hp r hr
      rcases List.pairwise_cons.mp hp with ⟨ha, hl⟩
      rcases List.mem_cons.mp hr with rfl | hrl
      · cases hfa : f r with
        | some b =>
            have hb : b.id = r.id := hf r b hfa
            simp [List.filterMap_cons, hfa, List.find?_cons, hb]
        | none =>
            simp only [List.filterMap_cons, hfa]
            rw [List.find?_eq_none]
            intro y hy
            rcases List.mem_filterMap.mp hy with ⟨x, hx, hfx⟩
            have hyx : y.id = x.id := hf x y hfx
            have hne : r.id ≠ x.id := ha x hx
            simp [hyx]
            exact fun h => hne h.symm
      · have hne : a.id ≠ r.id := ha r hrl
        cases hfa : f a with
        | some b =>
            have hb : b.id = a.id := hf a b hfa
            have hfalse : (decide (b.id = r.id)) = false := by
              simp [hb]
              exact hne
            simp only [List.filterMap_cons, hfa, List.find?_cons, hfalse]
            exact ih hl r hrl
        | none =>
            simp only [List.filterMap_cons, hfa]
            exact ih hl r hrl

theorem dedupRule_keeps_id (rows : List SRow) (x y : SRow)
    (h : dedupRule rows x = some y) : y.id = x.id := by
  unfold dedupRule at h
  dsimp only at h
  split at h
  · cases h; rfl
  · split at h
    · cases h; rfl
    · cases h

/-- The survivor row that the deduplication pass leaves for the head of
a duplicate group. -/
theorem consolidateSemantic_lookup (rows : List SRow) (r : SRow)
    (hids : rows.Pairwise (fun a b => a.id ≠ b.id)) (hr : r ∈ rows) :
    lookupById (consolidateSemantic rows).1 r.id = dedupRule rows r := by
  unfold lookupById consolidateSemantic
  exact find?_filterMap_of_keeps_id (dedupRule rows) (dedupRule_keeps_id rows) rows hids r hr

/-- C1 counterexample: two duplicate rows with access counts 5 and 7.
The deduplication pass leaves the survivor with access_count 6 (its own
5 plus the 1 removed duplicate), not the group sum 12 that the claim
asserts. -/
theorem consolidate_semantic_access_count_cex :
    ((consolidateSemantic [dupRowA, dupRowB]).1.map (fun r => r.access_count) = [6])
    ∧ dupRowA.access_count + dupRowB.access_count = 12
    ∧ (6 : Nat) ≠ 12 := by
  refine ⟨?_, ?_, ?_⟩
  · with_unfolding_all rfl
  · with_unfolding_all rfl
  · decide

/-- C1 (amended): in a table with distinct ids, one deduplication pass
keeps, for every group of semantic facts sharing (topic, first 50
characters of fact text) with more than one row, the first row of the
group as survivor, deletes every other row of the group, sets the
survivor's confidence to the group's maximum confidence, and sets the
survivor's access_count to its own previous access_count plus the
number of removed duplicates (not the sum of all members' access
counts); rows in singleton groups are kept unchanged. -/
theorem consolidate_semantic_amended (rows : List SRow) (r : SRow)
    (hids : rows.Pairwise (fun a b => a.id ≠ b.id)) (hr : r ∈ rows) :
    (1 < (rows.filter (fun x => sameKey x r)).length →
       ((rows.filter (fun x => sameKey x r)).head? = some r →
          lookupById (consolidateSemantic rows).1 r.id =
            some { r with
              confidence := maxConf (rows.filter (fun x => sameKey x r))
              access_count :=
                r.access_count + ((rows.filter (fun x => sameKey x r)).length - 1) })
       ∧ ((rows.filter (fun x => sameKey x r)).head? ≠ some r →
          lookupById (consolidateSemantic rows).1 r.id = none))
    ∧ ((rows.filter (fun x => sameKey x r)).length ≤ 1 →
       lookupById (consolidateSemantic rows).1 r.id = some r) := by
  have key := consolidateSemantic_lookup rows r hids hr
  rw [key]
  unfold dedupRule
  dsimp only
  constructor
  · intro hlen
    have hnot : ¬ (rows.filter (fun x => sameKey x r)).length ≤ 1 := by omega
    constructor
    · intro hhead
      rw [if_neg hnot, if_pos hhead]
    · intro hhead
      rw [if_neg hnot, if_neg hhead]
  · intro hlen
    rw [if_pos hlen]

/-- C1 witness: the spec's python example (three duplicates with
confidences 0.3, 0.6, 0.9 and access counts 1, 2, 3) collapses to the
first row with confidence 0.9 and access_count 1 + 2 = 3. -/
theorem consolidate_semantic_amended_witness :
    List.Pairwise (fun a b => a.id ≠ b.id) pyRows
    ∧ pyRow1 ∈ pyRows
    ∧ 1 < (pyRows.filter (fun x => sameKey x pyRow1)).length
    ∧ (pyRows.filter (fun x => sameKey x pyRow1)).head? = some pyRow1
    ∧ lookupById (consolidateSemantic pyRows).1 pyRow1.id =
        some { pyRow1 with
          confidence := maxConf (pyRows.filter (fun x => sameKey x pyRow1))
          access_count :=
            pyRow1.access_count + ((pyRows.filter (fun x => sameKey x pyRow1)).length - 1) }
    ∧ maxConf (pyRows.filter (fun x => sameKey x pyRow1)) = 9 / 10
    ∧ pyRow1.access_count + ((pyRows.filter (fun x => sameKey x pyRow1)).length - 1) = 3 := by
  have h1 : List.Pairwise (fun a b => a.id ≠ b.id) pyRows := by
    with_unfolding_all exact of_decide_eq_true rfl
  have h2 : pyRow1 ∈ pyRows := by
    with_unfolding_all exact of_decide_eq_true rfl
  have h3 : 1 < (pyRows.filter (fun x => sameKey x pyRow1)).length := by
    with_unfolding_all exact of_decide_eq_true rfl
  have h4 : (pyRows.filter (fun x => sameKey x pyRow1)).head? = some pyRow1 := by
    with_unfolding_all rfl
  refine ⟨h1, h2, h3, h4, ((consolidate_semantic_amended pyRows pyRow1 h1 h2).1 h3).1 h4, ?_, ?_⟩
  · with_unfolding_all rfl
  · with_unfolding_all rfl

theorem find?_skill_update (skills : List Skill) (name : String) (v : Skill) :
    (skills.map (fun s =>
        if decide (s.skill_name = name) then
          { s with
            success_count := v.success_count
            failure_count := v.failure_count
            confidence := v.confidence
            avg_duration_ms := v.avg_duration_ms }
        else s)).find? (fun s => decide (s.skill_name = name))
      = (skills.find? (fun s => decide (s.skill_name = name))).map
          (fun s =>
            { s with
              success_count := v.success_count
              failure_count := v.failure_count
              confidence := v.confidence
              avg_duration_ms := v.avg_duration_ms }) := by
  induction skills with
  | nil => rfl
  | cons s l ih =>
      by_cases hs : s.skill_name = name
      · have hpred : (decide (s.skill_name = name)) = true := by simpa using hs
        rw [List.map_cons, if_pos hpred, List.find?_cons, List.find?_cons, hpred]
        rfl
      · have hpred : (decide (s.skill_name = name)) = false := by simpa using hs
        rw [List.map_cons, if_neg (by simpa using hs), List.find?_cons, List.find?_cons, hpred]
        exact ih

theorem updateSkillStats_find (skills : List Skill) (name : String) (success : Bool)
    (d : Option Int) (sk : Skill)
    (hfind : skills.find? (fun s => decide (s.skill_name = name)) = some sk) :
    (updateSkillStats name success d skills).find? (fun s => decide (s.skill_name = name))
      = some (stepSkill success d sk) := by
  unfold updateSkillStats
  rw [hfind]
  dsimp only
  rw [find?_skill_update skills name (stepSkill success d sk), hfind]
  rfl

theorem stepSkill_success_count (success : Bool) (d : Option Int) (sk : Skill) :
    (stepSkill success d sk).success_count
      = sk.success_count + (if success then 1 else 0) := rfl

theorem stepSkill_failure_count (success : Bool) (d : Option Int) (sk : Skill) :
    (stepSkill success d sk).failure_count
      = sk.failure_count + (if success then 0 else 1) := rfl

theorem stepSkill_confidence (success : Bool) (d : Option Int) (sk : Skill) :
    (stepSkill success d sk).confidence
      = (((stepSkill success d sk).success_count : ℚ) + 1)
        / (((stepSkill success d sk).success_count : ℚ)
           + ((stepSkill success d sk).failure_count : ℚ) + 2) := by
  simp only [stepSkill]
  push_cast
  ring_nf

theorem foldl_stepSkill_counts (outcomes : List (Bool × Option Int)) :
    ∀ sk : Skill,
      (outcomes.foldl (fun s o => stepSkill o.1 o.2 s) sk).success_count
          = sk.success_count + successCount outcomes
      ∧ (outcomes.foldl (fun s o => stepSkill o.1 o.2 s) sk).failure_count
          = sk.failure_count + failureCount outcomes := by
  induction outcomes with
  | nil => intro sk; simp [successCount, failureCount]
  | cons o l ih =>
      intro sk
      rcases ih (stepSkill o.1 o.2 sk) with ⟨h1, h2⟩
      constructor
      · rw [List.foldl_cons, h1, stepSkill_success_count]
        cases ho : o.1 <;> simp [successCount, List.filter_cons, ho] <;> omega
      · rw [List.foldl_cons, h2, stepSkill_failure_count]
        cases ho : o.1 <;> simp [failureCount, List.filter_cons, ho] <;> omega

theorem laplace_after_nonempty (outcomes : List (Bool × Option Int)) :
    ∀ sk : Skill, outcomes ≠ [] →
      (outcomes.foldl (fun s o => stepSkill o.1 o.2 s) sk).confidence
        = (((outcomes.foldl (fun s o => stepSkill o.1 o.2 s) sk).success_count : ℚ) + 1)
          / (((outcomes.foldl (fun s o => stepSkill o.1 o.2 s) sk).success_count : ℚ)
             + ((outcomes.foldl (fun s o => stepSkill o.1 o.2 s) sk).failure_count : ℚ) + 2) := by
  induction outcomes with
  | nil => intro sk h; exact absurd rfl h
  | cons o l ih =>
      intro sk _
      rw [List.foldl_cons]
      cases l with
      | nil => rw [List.foldl_nil]; exact stepSkill_confidence o.1 o.2 sk
      | cons o' l' => exact ih (stepSkill o.1 o.2 sk) (by simp)

theorem applyOutcomes_find (name : String) (outcomes : List (Bool × Option Int)) :
    ∀ (skills : List Skill) (sk : Skill),
      skills.find? (fun s => decide (s.skill_name = name)) = some sk →
      (applyOutcomes name outcomes skills).find? (fun s => decide (s.skill_name = name))
        = some (outcomes.foldl (fun s o => stepSkill o.1 o.2 s) sk) := by
  induction outcomes with
  | nil => intro skills sk h; simpa [applyOutcomes] using h
  | cons o l ih =>
      intro skills sk h
      have h1 := updateSkillStats_find skills name o.1 o.2 sk h
      have h2 := ih (updateSkillStats name o.1 o.2 skills) (stepSkill o.1 o.2 sk) h1
      simpa [applyOutcomes, List.foldl_cons] using h2

/-- C2: for a skill present in the store with zero success and failure
counters, applying `record_skill_outcome` for a nonempty sequence with
n successful and m failed outcomes leaves the stored confidence at
exactly (n+1)/(n+m+2), the Laplace estimator over the accumulated
counters. -/
theorem record_skill_outcome_laplace (name : String) (skills : List Skill) (sk : Skill)
    (outcomes : List (Bool × Option Int))
    (hfind : skills.find? (fun s => decide (s.skill_name = name)) = some sk)
    (hs : sk.success_count = 0) (hf : sk.failure_count = 0) (hne : outcomes ≠ []) :
    ((applyOutcomes name outcomes skills).find? (fun s => decide (s.skill_name = name))).map
        (fun s => s.confidence)
      = some (((successCount outcomes : ℚ) + 1)
          / ((successCount outcomes : ℚ) + (failureCount outcomes : ℚ) + 2)) := by
  rw [applyOutcomes_find name outcomes skills sk hfind]
  rcases foldl_stepSkill_counts outcomes sk with ⟨h1, h2⟩
  have h3 := laplace_after_nonempty outcomes sk hne
  simp only [Option.map_some']
  rw [h3, h1, h2, hs, hf]
  norm_num

/-- C2 witness: 4 successes then 1 failure on a freshly added skill
leave confidence exactly 5/7 (the spec's example). -/
theorem record_skill_outcome_laplace_witness :
    ((applyOutcomes "deploy" lapOutcomes lapSkills).find?
        (fun s => decide (s.skill_name = "deploy"))).map (fun s => s.confidence)
      = some (5 / 7 : ℚ) := by
  have h := record_skill_outcome_laplace "deploy" lapSkills lapSkill lapOutcomes
    (by with_unfolding_all rfl) rfl rfl (by decide)
  rw [h]
  have h1 : successCount lapOutcomes = 4 := rfl
  have h2 : failureCount lapOutcomes = 1 := rfl
  rw [h1, h2]
  norm_num

/-- C3: for every mutating MemoryStore operation (whose unit of work is
a body run under `MemoryDatabase.transaction`), if the body fails, the
store state after the call equals the state before the call (full
rollback) and the caller sees exactly the body's error. -/
theorem transaction_rollback {σ ε : Type} (body : σ → Except ε σ) (s : σ)
    (h : (runTransaction body s).2.isSome = true) :
    (runTransaction body s).1 = s
    ∧ ∀ e : ε, body s = Except.error e → (runTransaction body s).2 = some e := by
  cases hb : body s with
  | ok s' =>
      exfalso
      rw [runTransaction, hb] at h
      simp at h
  | error e =>
      constructor
      · rw [runTransaction, hb]
      · intro e' he'
        rw [runTransaction, hb]
        cases he'
        rfl

/-- C3 witness: a failing unit of work leaves the state 7 unchanged and
surfaces the error. -/
theorem transaction_rollback_witness :
    (runTransaction failBody 7).2.isSome = true
    ∧ (runTransaction failBody 7).1 = 7
    ∧ (runTransaction failBody 7).2 = some "disk full" := by
  have h : (runTransaction failBody 7).2.isSome = true := rfl
  have h2 := transaction_rollback failBody 7 h
  exact ⟨h, h2.1, h2.2 "disk full" rfl⟩

/-- C10: calling `update_skill_stats` with a skill name that has no row
succeeds (no error reaches the caller) and leaves the store completely
unchanged: no row is created and no row is modified. -/
theorem update_missing_skill_noop (name : String) (success : Bool) (duration_ms : Option Int)
    (skills : List Skill)
    (h : skills.find? (fun s => decide (s.skill_name = name)) = none) :
    updateSkillStatsOp name success duration_ms skills = (skills, none) := by
  have h1 : updateSkillStats name success duration_ms skills = skills := by
    unfold updateSkillStats
    rw [h]
  show (updateSkillStats name success duration_ms skills, (none : Option String)) = (skills, none)
  rw [h1]

/-- C10 witness: recording an outcome for the absent skill "missing"
leaves the one-skill store untouched and reports no error. -/
theorem update_missing_skill_noop_witness :
    missSkills.find? (fun s => decide (s.skill_name = "missing")) = none
    ∧ updateSkillStatsOp "missing" true (some 5) missSkills = (missSkills, none) := by
  have h : missSkills.find? (fun s => decide (s.skill_name = "missing")) = none := by
    with_unfolding_all rfl
  exact ⟨h, update_missing_skill_noop "missing" true (some 5) missSkills h⟩

/-- C7 counterexample: with a stored average of 1 ms and a new sample
of 2 ms the stored average becomes 1 (floor of 3/2), not the exact
pairwise average 3/2; and with a stored average of 10 ms a new sample
of 0 ms (non-null!) leaves the average at 10 because Python treats 0 as
falsy, instead of the claimed (10+0)/2 = 5. -/
theorem skill_avg_duration_cex :
    (((updateSkillStats "s" true (some 2) [avgSkillOdd]).find?
        (fun s => decide (s.skill_name = "s"))).map (fun s => s.avg_duration_ms)
        = some (some 1)
      ∧ ((1 : ℚ) + 2) / 2 ≠ ((1 : Int) : ℚ))
    ∧ (((updateSkillStats "z" true (some 0) [avgSkillZero]).find?
        (fun s => decide (s.skill_name = "z"))).map (fun s => s.avg_duration_ms)
        = some (some 10)
      ∧ ((10 : ℚ) + 0) / 2 ≠ ((10 : Int) : ℚ)) := by
  refine ⟨⟨?_, by norm_num⟩, ⟨?_, by norm_num⟩⟩
  · with_unfolding_all rfl
  · with_unfolding_all rfl

/-- C7 (amended): for every skill whose stored avg_duration_ms is
non-null and nonzero, recording an outcome with a nonzero duration_ms
sets the stored avg_duration_ms to the floor of (old + new) / 2
(Python's integer division of the previous stored average and the new
sample); a duration of 0 or a stored average of 0 is treated as
missing by the code's truthiness test. -/
theorem skill_avg_duration_amended (name : String) (skills : List Skill) (sk : Skill)
    (success : Bool) (a d : Int)
    (hfind : skills.find? (fun s => decide (s.skill_name = name)) = some sk)
    (havg : sk.avg_duration_ms = some a) (ha : a ≠ 0) (hd : d ≠ 0) :
    ((updateSkillStats name success (some d) skills).find?
        (fun s => decide (s.skill_name = name))).map (fun s => s.avg_duration_ms)
      = some (some ((a + d).fdiv 2)) := by
  rw [updateSkillStats_find skills name success (some d) sk hfind]
  simp only [Option.map_some']
  simp [stepSkill, truthyI, havg, ha, hd]

/-- C7 witness: old average 4 ms and new sample 5 ms store
floor((4+5)/2) = 4. -/
theorem skill_avg_duration_amended_witness :
    [avgSkillW].find? (fun s => decide (s.skill_name = "w")) = some avgSkillW
    ∧ ((updateSkillStats "w" true (some 5) [avgSkillW]).find?
        (fun s => decide (s.skill_name = "w"))).map (fun s => s.avg_duration_ms)
      = some (some 4) := by
  have h : [avgSkillW].find? (fun s => decide (s.skill_name = "w")) = some avgSkillW := by
    with_unfolding_all rfl
  have h2 := skill_avg_duration_amended "w" [avgSkillW] avgSkillW true 4 5 h rfl
    (by decide) (by decide)
  refine ⟨h, ?_⟩
  rw [h2]
  rfl

/-- C9: the archive-episodic step changes only the tier field of
episodic rows that are WARM and older than the cutoff (relabelling them
COLD); the resulting table is the pointwise relabelling of the input
(every other row and every other field unchanged), no row is deleted
(same length), and the reported count is the number of matching rows. -/
theorem archive_episodic_frame (cutoff : Int) (rows : List EpisodicRow) :
    (archiveEpisodic cutoff rows).1
      = rows.map (fun r =>
          if decide (r.timestamp < cutoff) && decide (r.tier = "WARM") then
            { r with tier := "COLD" }
          else r)
    ∧ (archiveEpisodic cutoff rows).1.length = rows.length
    ∧ (archiveEpisodic cutoff rows).2
        = (rows.filter
            (fun r => decide (r.timestamp < cutoff) && decide (r.tier = "WARM"))).length := by
  unfold archiveEpisodic
  dsimp only
  split
  · rename_i hemp
    have hnil : rows.filter
        (fun r => decide (r.timestamp < cutoff) && decide (r.tier = "WARM")) = [] :=
      List.isEmpty_iff.mp hemp
    have hall : ∀ r ∈ rows,
        ¬ ((decide (r.timestamp < cutoff) && decide (r.tier = "WARM")) = true) :=
      List.filter_eq_nil_iff.mp hnil
    exact ⟨(map_eq_self_of rows _ (fun x hx => if_neg (hall x hx))).symm, rfl, rfl⟩
  · exact ⟨rfl, by simp, rfl⟩

theorem improveTopic_none (topic : String) (rows : List SRow)
    (h : (lowConfFacts topic rows).find? (fun r => decide (r.confidence < 7 / 10)) = none) :
    improveTopic topic rows = (rows, false) := by
  unfold improveTopic
  dsimp only
  split
  · rfl
  · rw [h]

theorem improveTopic_some (topic : String) (rows : List SRow) (f : SRow)
    (h : (lowConfFacts topic rows).find? (fun r => decide (r.confidence < 7 / 10)) = some f) :
    improveTopic topic rows
      = (rows.map (fun r =>
          if nocaseEq r.topic topic && decide (r.fact = f.fact) then
            { r with confidence := min (f.confidence + 1 / 20) (9 / 10) }
          else r), true) := by
  unfold improveTopic
  dsimp only
  split
  · rename_i hemp
    exfalso
    have hnil : lowConfFacts topic rows = [] := List.isEmpty_iff.mp hemp
    rw [hnil] at h
    simp at h
  · rw [h]

/-- C4 counterexample: two rows share topic "t" and the same fact text
with confidences 0.3 and 0.8.  One improvement call rewrites BOTH rows
to confidence 0.35 (the UPDATE is keyed on (topic, fact text), not on
the single fetched row), so two facts change — including one whose
confidence was not below 0.7 — refuting "mutates only the first
considered fact" and "at most one fact is updated". -/
theorem improve_topic_multiupdate_cex :
    changedCount [impRowA, impRowB] ((improveTopic "t" [impRowA, impRowB]).1) = 2
    ∧ ((improveTopic "t" [impRowA, impRowB]).1.map (fun r => r.confidence)
        = [7 / 20, 7 / 20])
    ∧ impRowA.confidence = 3 / 10
    ∧ impRowB.confidence = 8 / 10
    ∧ ¬ ((2 : Nat) ≤ 1) := by
  refine ⟨?_, ?_, ?_, ?_, by decide⟩
  · with_unfolding_all rfl
  · with_unfolding_all rfl
  · with_unfolding_all rfl
  · with_unfolding_all rfl

/-- C4 (amended): one improvement call considers at most the 5
lowest-confidence facts of the topic; if no considered fact has
confidence below 0.7, no fact is mutated; otherwise, taking the first
considered fact f with confidence < 0.7, the call sets confidence
min(f.confidence + 0.05, 0.9) on every row whose topic matches
case-insensitively and whose fact text equals f's — not only on the
fetched row — leaves all other rows unchanged, and stops; when at most
one row carries that (topic, fact text) key, at most one row changes. -/
theorem improve_topic_amended (topic : String) (rows : List SRow) :
    ((lowConfFacts topic rows).find? (fun r => decide (r.confidence < 7 / 10)) = none →
      improveTopic topic rows = (rows, false))
    ∧ ∀ f, (lowConfFacts topic rows).find? (fun r => decide (r.confidence < 7 / 10)) = some f →
        (improveTopic topic rows).1
            = rows.map (fun r =>
                if nocaseEq r.topic topic && decide (r.fact = f.fact) then
                  { r with confidence := min (f.confidence + 1 / 20) (9 / 10) }
                else r)
        ∧ (improveTopic topic rows).2 = true
        ∧ (rows.countP (fun r => nocaseEq r.topic topic && decide (r.fact = f.fact)) ≤ 1 →
            changedCount rows (improveTopic topic rows).1 ≤ 1) := by
  constructor
  · exact improveTopic_none topic rows
  · intro f hf
    have h2 := improveTopic_some topic rows f hf
    refine ⟨by rw [h2], by rw [h2], ?_⟩
    intro hcount
    have hp : ∀ r : SRow,
        (if nocaseEq r.topic topic && decide (r.fact = f.fact) then
          { r with confidence := min (f.confidence + 1 / 20) (9 / 10) }
        else r) ≠ r →
        (nocaseEq r.topic topic && decide (r.fact = f.fact)) = true := by
      intro r hne
      by_contra hc
      exact hne (if_neg hc)
    have hle := changedCount_map_le rows
      (fun r =>
        if nocaseEq r.topic topic && decide (r.fact = f.fact) then
          { r with confidence := min (f.confidence + 1 / 20) (9 / 10) }
        else r)
      (fun r => nocaseEq r.topic topic && decide (r.fact = f.fact)) hp
    rw [h2]
    exact le_trans hle hcount

/-- C4 witness: on the two-row table the first considered fact is the
0.3-confidence row, and the call performs exactly the keyed rewrite of
the amended claim and reports an improvement. -/
theorem improve_topic_amended_witness :
    (lowConfFacts "t" [impRowA, impRowB]).find? (fun r => decide (r.confidence < 7 / 10))
        = some impRowA
    ∧ (improveTopic "t" [impRowA, impRowB]).1
        = [impRowA, impRowB].map (fun r =>
            if nocaseEq r.topic "t" && decide (r.fact = impRowA.fact) then
              { r with confidence := min (impRowA.confidence + 1 / 20) (9 / 10) }
            else r)
    ∧ (improveTopic "t" [impRowA, impRowB]).2 = true := by
  have h : (lowConfFacts "t" [impRowA, impRowB]).find?
      (fun r => decide (r.confidence < 7 / 10)) = some impRowA := by
    with_unfolding_all rfl
  have h2 := (improve_topic_amended "t" [impRowA, impRowB]).2 impRowA h
  exact ⟨h, h2.1, h2.2.1⟩

theorem improveTopic_mem (topic : String) (rows : List SRow) :
    ∀ r' ∈ (improveTopic topic rows).1,
      r' ∈ rows
      ∨ ∃ r ∈ rows, ∃ f ∈ rows,
          r' = { r with confidence := min (f.confidence + 1 / 20) (9 / 10) } := by
  intro r' hr'
  cases hf : (lowConfFacts topic rows).find? (fun r => decide (r.confidence < 7 / 10)) with
  | none =>
      rw [improveTopic_none topic rows hf] at hr'
      exact Or.inl hr'
  | some f =>
      have hfmem : f ∈ rows := by
        have h1 : f ∈ lowConfFacts topic rows := List.mem_of_find?_eq_some hf
        unfold lowConfFacts at h1
        have h2 := List.mem_of_mem_take h1
        have h3 := (mem_insertionSortBy
          (fun a b => decide (a.confidence ≤ b.confidence)) f
          (rows.filter (fun r => nocaseEq r.topic topic))).mp h2
        exact List.mem_of_mem_filter h3
      rw [improveTopic_some topic rows f hf] at hr'
      dsimp only at hr'
      rcases List.mem_map.mp hr' with ⟨r, hr, hrr⟩
      by_cases hc : (nocaseEq r.topic topic && decide (r.fact = f.fact)) = true
      · right
        refine ⟨r, hr, f, hfmem, ?_⟩
        rw [← hrr, if_pos hc]
      · left
        rw [← hrr, if_neg hc]
        exact hr

theorem improveTopic_bounds (topic : String) (rows : List SRow)
    (h : ∀ r ∈ rows, 0 ≤ r.confidence ∧ r.confidence ≤ 1) :
    ∀ r' ∈ (improveTopic topic rows).1,
      (0 ≤ r'.confidence ∧ r'.confidence ≤ 1)
      ∧ (r' ∈ rows ∨ r'.confidence ≤ 9 / 10) := by
  intro r' hr'
  rcases improveTopic_mem topic rows r' hr' with hin | ⟨r, hr, f, hf, rfl⟩
  · exact ⟨h r' hin, Or.inl hin⟩
  · have hf0 : 0 ≤ f.confidence := (h f hf).1
    refine ⟨⟨?_, ?_⟩, Or.inr ?_⟩
    · show (0 : ℚ) ≤ min (f.confidence + 1 / 20) (9 / 10)
      have hpos : (0 : ℚ) ≤ f.confidence + 1 / 20 := by linarith
      exact le_min hpos (by norm_num)
    · show min (f.confidence + 1 / 20) (9 / 10) ≤ (1 : ℚ)
      calc min (f.confidence + 1 / 20) (9 / 10) ≤ 9 / 10 := min_le_right _ _
        _ ≤ 1 := by norm_num
    · show min (f.confidence + 1 / 20) (9 / 10) ≤ (9 : ℚ) / 10
      exact min_le_right _ _

/-- C5: if every fact's confidence starts in [0, 1], then after any
number of incremental-improvement calls every confidence is still in
[0, 1]; moreover every row the improvement path rewrote has confidence
at most 0.9 (a confidence above 0.9 can only be an untouched original
row). -/
theorem improvement_confidence_invariant (topics : List String) (rows : List SRow)
    (h : ∀ r ∈ rows, 0 ≤ r.confidence ∧ r.confidence ≤ 1) :
    (∀ r ∈ runImprovementCycles topics rows, 0 ≤ r.confidence ∧ r.confidence ≤ 1)
    ∧ (∀ r ∈ runImprovementCycles topics rows, r ∈ rows ∨ r.confidence ≤ 9 / 10) := by
  suffices hs : ∀ (ts : List String) (rs : List SRow),
      (∀ r ∈ rs, 0 ≤ r.confidence ∧ r.confidence ≤ 1) →
      (∀ r ∈ rs, r ∈ rows ∨ r.confidence ≤ 9 / 10) →
      (∀ r ∈ runImprovementCycles ts rs, 0 ≤ r.confidence ∧ r.confidence ≤ 1)
      ∧ (∀ r ∈ runImprovementCycles ts rs, r ∈ rows ∨ r.confidence ≤ 9 / 10) by
    exact hs topics rows h (fun r hr => Or.inl hr)
  intro ts
  induction ts with
  | nil => intro rs h1 h2; exact ⟨h1, h2⟩
  | cons t ts ih =>
      intro rs h1 h2
      have hstep := improveTopic_bounds t rs h1
      have h1' : ∀ r ∈ (improveTopic t rs).1, 0 ≤ r.confidence ∧ r.confidence ≤ 1 :=
        fun r hr => (hstep r hr).1
      have h2' : ∀ r ∈ (improveTopic t rs).1, r ∈ rows ∨ r.confidence ≤ 9 / 10 := by
        intro r hr
        rcases (hstep r hr).2 with hin | hle
        · exact h2 r hin
        · exact Or.inr hle
      have hrest := ih (improveTopic t rs).1 h1' h2'
      simpa [runImprovementCycles, List.foldl_cons] using hrest

/-- C5 witness: a single in-range fact stays in range over two
improvement cycles, and any rewritten confidence is at most 0.9. -/
theorem improvement_confidence_invariant_witness :
    (∀ r ∈ [invRow], 0 ≤ r.confidence ∧ r.confidence ≤ 1)
    ∧ (∀ r ∈ runImprovementCycles ["t", "t"] [invRow],
        0 ≤ r.confidence ∧ r.confidence ≤ 1)
    ∧ (∀ r ∈ runImprovementCycles ["t", "t"] [invRow],
        r ∈ [invRow] ∨ r.confidence ≤ 9 / 10) := by
  have h : ∀ r ∈ [invRow], 0 ≤ r.confidence ∧ r.confidence ≤ 1 := by
    intro r hr
    have heq : r = invRow := List.mem_singleton.mp hr
    subst heq
    constructor
    · show (0 : ℚ) ≤ 1 / 2
      norm_num
    · show (1 / 2 : ℚ) ≤ 1
      norm_num
  have h2 := improvement_confidence_invariant ["t", "t"] [invRow] h
  exact ⟨h, h2.1, h2.2⟩

theorem popBatch_spec (tasks : List (String × LTask))
    (hwf : ∀ p ∈ tasks, (p.2).topic = p.1) :
    ∀ (n : Nat) (q : List String),
      (∀ t ∈ q, (lookupTask tasks t).isSome = true) →
      ((popBatch tasks n q).1.map (fun t => t.topic) = q.take n
       ∧ (popBatch tasks n q).2 = q.drop n) := by
  intro n
  induction n with
  | zero => intro q hq; exact ⟨rfl, rfl⟩
  | succ n ih =>
      intro q hq
      cases q with
      | nil => exact ⟨rfl, rfl⟩
      | cons t q' =>
          have ht := hq t (List.mem_cons_self t q')
          cases hl : lookupTask tasks t with
          | none => rw [hl] at ht; simp at ht
          | some task =>
              have htopic : task.topic = t := by
                unfold lookupTask at hl
                cases hfind : tasks.find? (fun p => decide (p.1 = t)) with
                | none => rw [hfind] at hl; simp at hl
                | some p =>
                    rw [hfind] at hl
                    simp only [Option.map_some', Option.some.injEq] at hl
                    have hp1 : p.1 = t := by
                      have hpred := List.find?_some hfind
                      simpa using hpred
                    have hmem := List.mem_of_find?_eq_some hfind
                    rw [← hl, hwf p hmem, hp1]
              have hrest := ih q' (fun x hx => hq x (List.mem_cons_of_mem t hx))
              constructor
              · simp only [popBatch]
                rw [hl]
                dsimp only
                rw [List.map_cons, htopic, List.take_succ_cons, hrest.1]
              · simp only [popBatch]
                rw [hl]
                dsimp only
                rw [List.drop_succ_cons, hrest.2]

theorem foldl_processTask_queue (l : List LTask) :
    ∀ st : SchedulerState,
      (l.foldl processTask st).queue
        = ((l.filter (fun t => decide (7 ≤ requeuePriority t))).map
            (fun t => t.topic)).reverse
          ++ st.queue
          ++ (l.filter (fun t => ! decide (7 ≤ requeuePriority t))).map (fun t => t.topic) := by
  induction l with
  | nil => intro st; simp
  | cons t l ih =>
      intro st
      rw [List.foldl_cons, ih (processTask st t)]
      by_cases hp : 7 ≤ requeuePriority t
      · have hqe : (processTask st t).queue = t.topic :: st.queue := by
          show (if 7 ≤ requeuePriority t then t.topic :: st.queue
                else st.queue ++ [t.topic]) = t.topic :: st.queue
          rw [if_pos hp]
        rw [hqe]
        have hfhi : (t :: l).filter (fun x => decide (7 ≤ requeuePriority x))
            = t :: l.filter (fun x => decide (7 ≤ requeuePriority x)) := by
          simp [List.filter_cons, hp]
        have hflo : (t :: l).filter (fun x => ! decide (7 ≤ requeuePriority x))
            = l.filter (fun x => ! decide (7 ≤ requeuePriority x)) := by
          simp [List.filter_cons, hp]
        rw [hfhi, hflo]
        simp
      · have hqe : (processTask st t).queue = st.queue ++ [t.topic] := by
          show (if 7 ≤ requeuePriority t then t.topic :: st.queue
                else st.queue ++ [t.topic]) = st.queue ++ [t.topic]
          rw [if_neg hp]
        rw [hqe]
        have hfhi : (t :: l).filter (fun x => decide (7 ≤ requeuePriority x))
            = l.filter (fun x => decide (7 ≤ requeuePriority x)) := by
          simp [List.filter_cons, hp]
        have hflo : (t :: l).filter (fun x => ! decide (7 ≤ requeuePriority x))
            = t :: l.filter (fun x => ! decide (7 ≤ requeuePriority x)) := by
          simp [List.filter_cons, hp]
        rw [hfhi, hflo]
        simp

/-- C6: for a state whose queued topics are all tracked in active_tasks
(an invariant of the class, which never deletes map entries), one cycle
pops exactly the first min(batch_size, queue length) topics from the
front of the FIFO queue, only that popped batch is sorted (stably) in
descending priority to fix processing order, and every popped topic is
reinserted — those with recomputed priority ≥ 7 at the front, the rest
at the back — so the final queue is fronts.reverse ++ untouched
remainder ++ backs and no popped topic is lost from the queue. -/
theorem process_batch_spec (bs : Nat) (st : SchedulerState)
    (hwf : ∀ p ∈ st.tasks, (p.2).topic = p.1)
    (hq : ∀ t ∈ st.queue, (lookupTask st.tasks t).isSome = true) :
    ((popBatch st.tasks bs st.queue).1.map (fun t => t.topic) = st.queue.take bs)
    ∧ ((popBatch st.tasks bs st.queue).2 = st.queue.drop bs)
    ∧ (insertionSortBy prioGe (popBatch st.tasks bs st.queue).1).Pairwise
        (fun a b => b.priority ≤ a.priority)
    ∧ ((processBatch bs st).queue
        = (((insertionSortBy prioGe (popBatch st.tasks bs st.queue).1).filter
              (fun t => decide (7 ≤ requeuePriority t))).map (fun t => t.topic)).reverse
          ++ st.queue.drop bs
          ++ ((insertionSortBy prioGe (popBatch st.tasks bs st.queue).1).filter
              (fun t => ! decide (7 ≤ requeuePriority t))).map (fun t => t.topic))
    ∧ (∀ t ∈ st.queue.take bs, t ∈ (processBatch bs st).queue) := by
  obtain ⟨hpop1, hpop2⟩ := popBatch_spec st.tasks hwf bs st.queue hq
  have htot : ∀ x y : LTask, prioGe x y = true ∨ prioGe y x = true := by
    intro x y
    unfold prioGe
    rcases le_total y.priority x.priority with h | h
    · left; simpa using h
    · right; simpa using h
  have htrans : ∀ x y z : LTask,
      prioGe x y = true → prioGe y z = true → prioGe x z = true := by
    intro x y z hxy hyz
    unfold prioGe at *
    simp only [decide_eq_true_eq] at *
    omega
  have hsorted0 := pairwise_insertionSortBy prioGe
    (popBatch st.tasks bs st.queue).1 htot htrans
  have hsorted : (insertionSortBy prioGe (popBatch st.tasks bs st.queue).1).Pairwise
      (fun a b => b.priority ≤ a.priority) := by
    refine hsorted0.imp ?_
    intro a b hab
    unfold prioGe at hab
    simpa using hab
  have hqueue : (processBatch bs st).queue
      = (((insertionSortBy prioGe (popBatch st.tasks bs st.queue).1).filter
            (fun t => decide (7 ≤ requeuePriority t))).map (fun t => t.topic)).reverse
        ++ st.queue.drop bs
        ++ ((insertionSortBy prioGe (popBatch st.tasks bs st.queue).1).filter
            (fun t => ! decide (7 ≤ requeuePriority t))).map (fun t => t.topic) := by
    unfold processBatch
    dsimp only
    split
    · rename_i hemp
      have hnil : insertionSortBy prioGe (popBatch st.tasks bs st.queue).1 = [] :=
        List.isEmpty_iff.mp hemp
      rw [hnil]
      simpa using hpop2
    · rw [foldl_processTask_queue]
      dsimp only
      rw [hpop2]
  refine ⟨hpop1, hpop2, hsorted, hqueue, ?_⟩
  intro t ht
  rw [← hpop1] at ht
  rcases List.mem_map.mp ht with ⟨task, htask, rfl⟩
  have hsm : task ∈ insertionSortBy prioGe (popBatch st.tasks bs st.queue).1 :=
    (mem_insertionSortBy prioGe task _).mpr htask
  rw [hqueue]
  simp only [List.mem_append, List.mem_reverse, List.mem_map, List.mem_filter]
  by_cases hp : 7 ≤ requeuePriority task
  · exact Or.inl (Or.inl ⟨task, ⟨hsm, by simpa using hp⟩, rfl⟩)
  · exact Or.inr ⟨task, ⟨hsm, by simpa using hp⟩, rfl⟩

/-- C6 witness: a two-topic queue whose tasks are both tracked; both
popped topics survive the cycle in the queue. -/
theorem process_batch_spec_witness :
    (∀ p ∈ demoSched.tasks, (p.2).topic = p.1)
    ∧ (∀ t ∈ demoSched.queue, (lookupTask demoSched.tasks t).isSome = true)
    ∧ (∀ t ∈ demoSched.queue.take 2, t ∈ (processBatch 2 demoSched).queue) := by
  have h1 : ∀ p ∈ demoSched.tasks, (p.2).topic = p.1 := by decide
  have h2 : ∀ t ∈ demoSched.queue, (lookupTask demoSched.tasks t).isSome = true := by decide
  exact ⟨h1, h2, (process_batch_spec 2 demoSched h1 h2).2.2.2.2⟩

/-- C8 counterexample: with 101 stored facts of confidence 1 the export
holds 101 semantic entries, while querying the store through
get_semantic_memories with min_confidence 0.5 and its default limit of
100 returns only 100 rows — the two counts differ. -/
theorem export_count_default_limit_cex :
    (exportKnowledgeBase bigFacts [] []).semantic_memory.length = 101
    ∧ (getSemanticMemories none (1 / 2) 100 bigFacts).length = 100
    ∧ (exportKnowledgeBase bigFacts [] []).semantic_memory.length
        ≠ (getSemanticMemories none (1 / 2) 100 bigFacts).length := by
  have h1 : (exportKnowledgeBase bigFacts [] []).semantic_memory.length = 101 := by
    with_unfolding_all rfl
  have h2 : (getSemanticMemories none (1 / 2) 100 bigFacts).length = 100 := by
    with_unfolding_all rfl
  refine ⟨h1, h2, ?_⟩
  rw [h1, h2]
  decide

/-- C8 (amended): the export contains exactly the semantic facts with
confidence ≥ 0.5, exactly the skills with confidence ≥ 0.5, and at most
the 100 most-recent sessions with a non-null summary — the exported
sessions come from the store, each has a summary, they are listed in
descending start_time order, and no summarized session left out of the
export is more recent than any exported one; the number of semantic
entries equals the count returned by an independent
get_semantic_memories query with min_confidence 0.5 whenever the number
of qualifying facts does not exceed the query's limit (default 100) —
with more qualifying facts than the limit the query truncates and the
counts differ. -/
theorem export_knowledge_base_amended (facts : List SRow) (skills : List Skill)
    (sess : List Session) (limit : Nat) :
    ((exportKnowledgeBase facts skills sess).semantic_memory
        = facts.filter (fun r => decide ((1 / 2 : ℚ) ≤ r.confidence)))
    ∧ ((exportKnowledgeBase facts skills sess).skill_memory
        = skills.filter (fun s => decide ((1 / 2 : ℚ) ≤ s.confidence)))
    ∧ ((exportKnowledgeBase facts skills sess).sessions.length
        = min 100 ((sess.filter (fun s => s.summary.isSome)).length))
    ∧ (∀ s ∈ (exportKnowledgeBase facts skills sess).sessions,
        s ∈ sess ∧ s.summary.isSome = true)
    ∧ ((exportKnowledgeBase facts skills sess).sessions.Pairwise
        (fun a b => b.start_time ≤ a.start_time))
    ∧ (∀ s ∈ (exportKnowledgeBase facts skills sess).sessions,
        ∀ s' ∈ sess.filter (fun x => x.summary.isSome),
          s' ∉ (exportKnowledgeBase facts skills sess).sessions →
            s'.start_time ≤ s.start_time)
    ∧ ((facts.filter (fun r => decide ((1 / 2 : ℚ) ≤ r.confidence))).length ≤ limit →
        (exportKnowledgeBase facts skills sess).semantic_memory.length
          = (getSemanticMemories none (1 / 2) limit facts).length) := by
  have htot : ∀ x y : Session,
      decide (y.start_time ≤ x.start_time) = true
      ∨ decide (x.start_time ≤ y.start_time) = true := by
    intro x y
    rcases le_total y.start_time x.start_time with h | h
    · left; simpa using h
    · right; simpa using h
  have htrans : ∀ x y z : Session,
      decide (y.start_time ≤ x.start_time) = true →
      decide (z.start_time ≤ y.start_time) = true →
      decide (z.start_time ≤ x.start_time) = true := by
    intro x y z h1 h2
    simp only [decide_eq_true_eq] at *
    omega
  have hpw0 := pairwise_insertionSortBy
    (fun a b : Session => decide (b.start_time ≤ a.start_time))
    (sess.filter (fun s => s.summary.isSome)) htot htrans
  have hpw : (insertionSortBy (fun a b : Session => decide (b.start_time ≤ a.start_time))
      (sess.filter (fun s => s.summary.isSome))).Pairwise
      (fun a b => b.start_time ≤ a.start_time) := by
    refine hpw0.imp ?_
    intro a b hab
    simpa using hab
  have hpw2 : ((insertionSortBy (fun a b : Session => decide (b.start_time ≤ a.start_time))
        (sess.filter (fun s => s.summary.isSome))).take 100
      ++ (insertionSortBy (fun a b : Session => decide (b.start_time ≤ a.start_time))
        (sess.filter (fun s => s.summary.isSome))).drop 100).Pairwise
      (fun a b => b.start_time ≤ a.start_time) := by
    rw [List.take_append_drop]
    exact hpw
  refine ⟨rfl, rfl, ?_, ?_, ?_, ?_, ?_⟩
  · show ((insertionSortBy (fun a b => decide (b.start_time ≤ a.start_time))
        (sess.filter (fun s => s.summary.isSome))).take 100).length = _
    rw [List.length_take, length_insertionSortBy]
  · intro s hs
    have hs' : s ∈ (insertionSortBy (fun a b => decide (b.start_time ≤ a.start_time))
        (sess.filter (fun s => s.summary.isSome))).take 100 := hs
    have h1 := List.mem_of_mem_take hs'
    have h2 := (mem_insertionSortBy (fun a b => decide (b.start_time ≤ a.start_time)) s
      (sess.filter (fun s => s.summary.isSome))).mp h1
    exact ⟨(List.mem_filter.mp h2).1, (List.mem_filter.mp h2).2⟩
  · show ((insertionSortBy (fun a b => decide (b.start_time ≤ a.start_time))
        (sess.filter (fun s => s.summary.isSome))).take 100).Pairwise
        (fun a b => b.start_time ≤ a.start_time)
    exact hpw.sublist (List.take_sublist 100 _)
  · intro s hs s' hs' hnot
    have hsT : s ∈ (insertionSortBy (fun a b => decide (b.start_time ≤ a.start_time))
        (sess.filter (fun s => s.summary.isSome))).take 100 := hs
    have hnotT : s' ∉ (insertionSortBy (fun a b => decide (b.start_time ≤ a.start_time))
        (sess.filter (fun s => s.summary.isSome))).take 100 := hnot
    have hmem : s' ∈ insertionSortBy (fun a b => decide (b.start_time ≤ a.start_time))
        (sess.filter (fun s => s.summary.isSome)) :=
      (mem_insertionSortBy (fun a b => decide (b.start_time ≤ a.start_time)) s'
        (sess.filter (fun s => s.summary.isSome))).mpr hs'
    rw [← List.take_append_drop 100 (insertionSortBy
      (fun a b => decide (b.start_time ≤ a.start_time))
      (sess.filter (fun s => s.summary.isSome)))] at hmem
    rcases List.mem_append.mp hmem with h | h
    · exact absurd h hnotT
    · exact (List.pairwise_append.mp hpw2).2.2 s hsT s' h
  · intro h
    show (facts.filter (fun r => decide ((1 / 2 : ℚ) ≤ r.confidence))).length = _
    unfold getSemanticMemories
    dsimp only
    rw [List.length_take, length_insertionSortBy]
    exact (Nat.min_eq_right h).symm

/-- C8 witness: with one qualifying and one non-qualifying fact and the
default limit 100 the export count and the query count agree. -/
theorem export_knowledge_base_amended_witness :
    ((expFacts.filter (fun r => decide ((1 / 2 : ℚ) ≤ r.confidence))).length ≤ 100)
    ∧ ((exportKnowledgeBase expFacts [] []).semantic_memory.length
        = (getSemanticMemories none (1 / 2) 100 expFacts).length)
    ∧ (exportKnowledgeBase expFacts [] []).semantic_memory.length = 1 := by
  have h : (expFacts.filter (fun r => decide ((1 / 2 : ℚ) ≤ r.confidence))).length ≤ 100 := by
    with_unfolding_all exact of_decide_eq_true rfl
  refine ⟨h, (export_knowledge_base_amended expFacts [] [] 100).2.2.2.2.2.2 h, ?_⟩
  with_unfolding_all rfl
